import Mathlib

/-!
Verification of the binary decoding layer of the font_decoder repository.

The definitions below are a shallow embedding of the Rust sources:
bytes are natural numbers below 256 in a list, machine integers are
Nat or Int with explicit reduction modulo 2^w where the code wraps,
fallible operations return Option, and operations that can abort the
process (assert!, unwrap, todo!) return a three-valued outcome PRes
that separates a clean negative result from a panic.
-/

set_option maxHeartbeats 1000000

namespace FontDecoder

/-- Outcome of a Rust function that may return a value, return a clean
negative result (None / Err) to its caller, or terminate the process
(assert! / unwrap / todo! panic). -/
inductive PRes (α : Type) where
  | ok (val : α)
  | fail
  | panic
deriving Repr, DecidableEq

/-- Byte buffer: the contents of a Rust byte slice. -/
abbrev ByteSeq := List Nat

/-- Rust slice indexing by range, data.get(s..e): some sub-slice when
s ≤ e and e ≤ data.len(), none otherwise. -/
def sliceGet (d : ByteSeq) (s e : Nat) : Option ByteSeq :=
  if s ≤ e ∧ e ≤ d.length then some ((d.drop s).take (e - s)) else none

/-- Stream over a byte slice with an offset cursor (src/decoder.rs). -/
structure Stream where
  data : ByteSeq
  offset : Nat
deriving Repr, DecidableEq

/-- Stream::read_bytes: the bytes are taken at the old offset, and the
offset is incremented by len unconditionally, before the bounds check
result is returned (src/decoder.rs lines 270-274). -/
def Stream.readBytes (s : Stream) (len : Nat) : Option ByteSeq × Stream :=
  (sliceGet s.data s.offset (s.offset + len), { s with offset := s.offset + len })

/-- u16::from_be_bytes via try_into: succeeds only on exactly two bytes. -/
def parseU16 (d : ByteSeq) : Option Nat :=
  match d with
  | [b1, b0] => some (b1 * 256 + b0)
  | _ => none

/-- u32::from_be_bytes via try_into: succeeds only on exactly four bytes. -/
def parseU32 (d : ByteSeq) : Option Nat :=
  match d with
  | [b3, b2, b1, b0] => some (((b3 * 256 + b2) * 256 + b1) * 256 + b0)
  | _ => none

/-- Twos-complement reading of a w-bit unsigned value. -/
def toSigned (w : Nat) (n : Nat) : Int :=
  if n < 2 ^ (w - 1) then (n : Int) else (n : Int) - 2 ^ w

/-- i16::from_be_bytes via try_into: two bytes, big-endian twos complement. -/
def parseI16 (d : ByteSeq) : Option Int :=
  (parseU16 d).map (toSigned 16)

/-- i64::from_be_bytes via try_into: succeeds only on exactly eight bytes,
big-endian twos complement. -/
def parseI64 (d : ByteSeq) : Option Int :=
  match d with
  | [b7, b6, b5, b4, b3, b2, b1, b0] =>
    some (toSigned 64
      (((((((b7 * 256 + b6) * 256 + b5) * 256 + b4) * 256 + b3) * 256 + b2) * 256 + b1) * 256 + b0))
  | _ => none

/-- Stream::read::\<u16\>: read_bytes(u16::SIZE = 2) then parse. -/
def Stream.readU16 (s : Stream) : Option Nat × Stream :=
  let r := s.readBytes 2
  (r.1.bind parseU16, r.2)

/-- Stream::read::\<u32\>: read_bytes(u32::SIZE = 4) then parse. -/
def Stream.readU32 (s : Stream) : Option Nat × Stream :=
  let r := s.readBytes 4
  (r.1.bind parseU32, r.2)

/-- Stream::read::\<i64\>: the source declares i64::SIZE = 64
(src/decoder.rs line 47), so read_bytes is asked for 64 bytes while
i64::parse only accepts an 8-byte slice. -/
def Stream.readI64 (s : Stream) : Option Int × Stream :=
  let r := s.readBytes 64
  (r.1.bind parseI64, r.2)

/-- Stream::read::\<LONGDATETIME\>: LONGDATETIME::SIZE = 8 and its parse
delegates to i64::parse on the 8-byte slice (src/decoder.rs lines 69-75). -/
def Stream.readLongDateTime (s : Stream) : Option Int × Stream :=
  let r := s.readBytes 8
  (r.1.bind parseI64, r.2)

/-- Typed lazy array over a byte region (src/decoder.rs LazyArray):
elements of on-wire size elemSize are parsed on demand. -/
structure LazyArray (α : Type) where
  buffer : ByteSeq
  elemSize : Nat
  parseElem : ByteSeq → Option α

/-- LazyArray::len. -/
def LazyArray.len (a : LazyArray α) : Nat :=
  a.buffer.length / a.elemSize

/-- LazyArray::get: parse the i-th element from its sub-slice. -/
def LazyArray.get (a : LazyArray α) (i : Nat) : Option α :=
  if i < a.len then
    (sliceGet a.buffer (i * a.elemSize) (i * a.elemSize + a.elemSize)).bind a.parseElem
  else
    none

/-- LazyArray::is_empty. -/
def LazyArray.isEmpty (a : LazyArray α) : Prop :=
  a.len = 0

/-- LazyArray::last. -/
def LazyArray.last (a : LazyArray α) : Option α :=
  if a.len ≠ 0 then a.get (a.len - 1) else none

/-- LazyArray of u16 values. -/
def mkU16Array (b : ByteSeq) : LazyArray Nat :=
  ⟨b, 2, parseU16⟩

/-- LazyArray of i16 values. -/
def mkI16Array (b : ByteSeq) : LazyArray Int :=
  ⟨b, 2, parseI16⟩

/-- Stream::read_array::\<u16\>: read count * u16::SIZE bytes and wrap them. -/
def Stream.readArrayU16 (s : Stream) (count : Nat) : Option (LazyArray Nat) × Stream :=
  let r := s.readBytes (count * 2)
  (r.1.map mkU16Array, r.2)

-- Basic facts about slices and streams.

theorem sliceGet_eq_some (d : ByteSeq) (s e : Nat) (h : s ≤ e ∧ e ≤ d.length) :
    sliceGet d s e = some ((d.drop s).take (e - s)) := by
  simp [sliceGet, h]

theorem sliceGet_isSome_iff (d : ByteSeq) (s e : Nat) :
    (sliceGet d s e).isSome ↔ (s ≤ e ∧ e ≤ d.length) := by
  by_cases h : s ≤ e ∧ e ≤ d.length <;> simp [sliceGet, h]

theorem sliceGet_length (d : ByteSeq) (s e : Nat) (bs : ByteSeq)
    (h : sliceGet d s e = some bs) : bs.length = e - s := by
  unfold sliceGet at h
  split at h
  · rename_i hc
    cases h
    simp [List.length_take, List.length_drop]
    omega
  · cases h

theorem readBytes_offset (s : Stream) (len : Nat) :
    ((s.readBytes len).2).offset = s.offset + len := rfl

theorem readBytes_none_iff (s : Stream) (len : Nat) :
    (s.readBytes len).1 = none ↔ s.data.length < s.offset + len := by
  unfold Stream.readBytes
  simp only
  constructor
  · intro h
    by_contra hc
    push_neg at hc
    rw [sliceGet_eq_some s.data s.offset (s.offset + len) ⟨by omega, hc⟩] at h
    cases h
  · intro h
    unfold sliceGet
    rw [if_neg]
    omega

theorem readBytes_some_length (s : Stream) (len : Nat) (bs : ByteSeq)
    (h : (s.readBytes len).1 = some bs) : bs.length = len := by
  have := sliceGet_length s.data s.offset (s.offset + len) bs h
  omega

/-- C1 (amended): Stream::read_bytes never produces a partial result and
fails exactly when the requested range exceeds the region, but the cursor
advances by the requested length even when the read fails, so a failed
read can push the cursor past the region length; Stream::read and
Stream::read_array propagate the failure as None. -/
theorem stream_readBytes_cursor_spec (s : Stream) (len : Nat) :
    ((s.readBytes len).2).offset = s.offset + len ∧
    ((s.readBytes len).1 = none ↔ s.data.length < s.offset + len) ∧
    (∀ bs, (s.readBytes len).1 = some bs →
      bs = (s.data.drop s.offset).take len ∧ bs.length = len) ∧
    ((s.readU16).1 = none ↔ s.data.length < s.offset + 2) ∧
    (∀ count, ((s.readArrayU16 count).1 = none ↔ s.data.length < s.offset + count * 2)) := by
  refine ⟨readBytes_offset s len, readBytes_none_iff s len, ?_, ?_, ?_⟩
  · intro bs h
    have hlen := readBytes_some_length s len bs h
    unfold Stream.readBytes sliceGet at h
    simp only at h
    split at h
    · cases h
      constructor
      · congr 1
        omega
      · exact hlen
    · cases h
  · unfold Stream.readU16
    simp only
    constructor
    · intro h
      by_contra hc
      push_neg at hc
      obtain ⟨bs, hbs⟩ := Option.isSome_iff_exists.mp
        ((sliceGet_isSome_iff s.data s.offset (s.offset + 2)).mpr ⟨by omega, hc⟩)
      have hb2 : bs.length = 2 := by
        have := sliceGet_length s.data s.offset (s.offset + 2) bs hbs
        omega
      unfold Stream.readBytes at h
      simp only [hbs, Option.bind] at h
      match bs, hb2 with
      | [x, y], _ => simp [parseU16] at h
    · intro h
      have := (readBytes_none_iff s 2).mpr h
      simp [this]
  · intro count
    unfold Stream.readArrayU16
    simp only
    constructor
    · intro h
      by_contra hc
      push_neg at hc
      obtain ⟨bs, hbs⟩ := Option.isSome_iff_exists.mp
        ((sliceGet_isSome_iff s.data s.offset (s.offset + count * 2)).mpr ⟨by omega, hc⟩)
      unfold Stream.readBytes at h
      simp [hbs] at h
    · intro h
      have := (readBytes_none_iff s (count * 2)).mpr h
      simp [this]

/-- C1 counterexample: on the empty region, a 1-byte read returns None
yet advances the cursor from 0 to 1, which exceeds the region length 0 —
refuting "fails without advancing" and "cursor ≤ length at all times". -/
theorem stream_readBytes_advances_on_failure :
    (Stream.readBytes ⟨[], 0⟩ 1).1 = none ∧
    ((Stream.readBytes ⟨[], 0⟩ 1).2).offset = 1 ∧
    (Stream.mk [] 0).data.length = 0 := by
  decide

/-- C10: because the source sets i64::SIZE = 64 (bits, not bytes),
Stream::read::\<i64\> always consumes 64 bytes of cursor and always
returns None — from_be_bytes via try_into requires exactly 8 bytes —
whereas the 8-byte LONGDATETIME read it was meant to back decodes the
next 8 bytes as a big-endian twos-complement value and advances by 8. -/
theorem stream_readI64_always_fails :
    (∀ s : Stream, (s.readI64).1 = none ∧ ((s.readI64).2).offset = s.offset + 64) ∧
    (Stream.readLongDateTime ⟨[0, 0, 0, 0, 0, 0, 0, 1], 0⟩).1 = some 1 ∧
    ((Stream.readLongDateTime ⟨[0, 0, 0, 0, 0, 0, 0, 1], 0⟩).2).offset = 8 ∧
    (Stream.readLongDateTime ⟨[255, 255, 255, 255, 255, 255, 255, 255], 0⟩).1 = some (-1) := by
  refine ⟨?_, by decide, by decide, by decide⟩
  intro s
  refine ⟨?_, rfl⟩
  unfold Stream.readI64
  simp only
  match hb : (s.readBytes 64).1 with
  | none => rfl
  | some bs =>
    have hlen := readBytes_some_length s 64 bs hb
    simp only [Option.bind]
    match bs, hlen with
    | b0 :: b1 :: b2 :: b3 :: b4 :: b5 :: b6 :: b7 :: b8 :: rest, hlen => simp [parseI64]

-- The loca table (src/loca.rs): parsed 16- or 32-bit offset arrays.

/-- LocaTable: Short holds parsed 16-bit offsets, Long parsed 32-bit
offsets (src/loca.rs lines 9-12). -/
inductive LocaTable where
  | short (offsets : List Nat)
  | long (offsets : List Nat)
deriving Repr, DecidableEq

/-- LocaTable::len. -/
def LocaTable.len : LocaTable → Nat
  | .short offsets => offsets.length
  | .long offsets => offsets.length

/-- LocaTable::get_glyf_range (src/loca.rs lines 36-61): both the Short
and the Long arm multiply the stored offsets by 2; an empty range
(start ≥ end) yields none. -/
def LocaTable.get_glyf_range (t : LocaTable) (glyphId : Nat) : Option (Nat × Nat) :=
  let nextGlyphId := glyphId + 1
  if t.len ≤ nextGlyphId then none
  else
    let range? : Option (Nat × Nat) :=
      match t with
      | .short offsets =>
        match offsets.get? glyphId, offsets.get? nextGlyphId with
        | some s, some e => some (s * 2, e * 2)
        | _, _ => none
      | .long offsets =>
        match offsets.get? glyphId, offsets.get? nextGlyphId with
        | some s, some e => some (s * 2, e * 2)
        | _, _ => none
    match range? with
    | none => none
    | some (s, e) => if e ≤ s then none else some (s, e)

/-- Modelled from the spec: the byte range of a glyph in glyf is
[loca[id], loca[id+1]), doubled for the 16-bit variant only — the 32-bit
offsets are taken verbatim — and an empty range yields none. -/
def locaGlyfRangeSpec (t : LocaTable) (glyphId : Nat) : Option (Nat × Nat) :=
  match t with
  | .short offsets =>
    match offsets.get? glyphId, offsets.get? (glyphId + 1) with
    | some s, some e => if s * 2 < e * 2 then some (s * 2, e * 2) else none
    | _, _ => none
  | .long offsets =>
    match offsets.get? glyphId, offsets.get? (glyphId + 1) with
    | some s, some e => if s < e then some (s, e) else none
    | _, _ => none

/-- C3: the Short variant matches the claim (including the concrete
scenario), but the Long variant also multiplies its stored offsets by 2,
diverging from the specified verbatim interpretation: loca = Long [0, 1]
maps glyph 0 to [0, 2) where the spec requires [0, 1). -/
theorem loca_long_offsets_doubled :
    LocaTable.get_glyf_range (.long [0, 1]) 0 = some (0, 2) ∧
    locaGlyfRangeSpec (.long [0, 1]) 0 = some (0, 1) ∧
    LocaTable.get_glyf_range (.short [0x0000, 0x0010, 0x0010, 0x0030]) 0 = some (0, 32) ∧
    LocaTable.get_glyf_range (.short [0x0000, 0x0010, 0x0010, 0x0030]) 1 = none ∧
    LocaTable.get_glyf_range (.short [0x0000, 0x0010, 0x0010, 0x0030]) 2 = some (32, 96) ∧
    LocaTable.get_glyf_range (.short [0x0000, 0x0010, 0x0010, 0x0030]) 3 = none ∧
    locaGlyfRangeSpec (.short [0x0000, 0x0010, 0x0010, 0x0030]) 0 = some (0, 32) := by
  decide

-- Morx extended state table region bounds (src/morx.rs).

/-- make_rank (src/morx.rs lines 880-889): the rank of each value is the
number of values strictly below it. -/
def make_rank (values : List Nat) : List Nat :=
  values.map (fun value =>
    values.foldl (fun accumulator part => accumulator + if part < value then 1 else 0) 0)

/-- Region-end selection of MorxSubtableRearrangement::parse
(src/morx.rs lines 238-242): offsets = [class, state, entry, end],
ranks = make_rank offsets, and the end of each region is read from the
unsorted offsets array at index rank + 1. -/
def rearrangementRegionEnds (classStart stateStart entryStart endOfs : Nat) :
    Option (Nat × Nat × Nat) :=
  let offsets : List Nat := [classStart, stateStart, entryStart, endOfs]
  let ranks := make_rank offsets
  match ranks.get? 0, ranks.get? 1, ranks.get? 2 with
  | some r0, some r1, some r2 =>
    match offsets.get? (r0 + 1), offsets.get? (r1 + 1), offsets.get? (r2 + 1) with
    | some classEnd, some stateEnd, some entryEnd => some (classEnd, stateEnd, entryEnd)
    | _, _, _ => none
  | _, _, _ => none

/-- Region-end selection of MorxSubtableContextual::parse
(src/morx.rs lines 367-378), with the substitution-table offset as a
fourth region before the payload end. -/
def contextualRegionEnds (classStart stateStart entryStart substStart endOfs : Nat) :
    Option (Nat × Nat × Nat × Nat) :=
  let offsets : List Nat := [classStart, stateStart, entryStart, substStart, endOfs]
  let ranks := make_rank offsets
  match ranks.get? 0, ranks.get? 1, ranks.get? 2, ranks.get? 3 with
  | some r0, some r1, some r2, some r3 =>
    match offsets.get? (r0 + 1), offsets.get? (r1 + 1),
          offsets.get? (r2 + 1), offsets.get? (r3 + 1) with
    | some classEnd, some stateEnd, some entryEnd, some substEnd =>
      some (classEnd, stateEnd, entryEnd, substEnd)
    | _, _, _, _ => none
  | _, _, _, _ => none

/-- Modelled from the spec: the end of a region is the smallest value among
the offsets of the other regions plus the payload end that is strictly
greater than the start of the region. -/
def nextGreaterEnd (start : Nat) (others : List Nat) (payloadEnd : Nat) : Nat :=
  (others.concat payloadEnd).foldr
    (fun o acc => if start < o ∧ o < acc then o else acc) payloadEnd

/-- C4: with classTableOffset = 16, stateArrayOffset = 32,
entryTableOffset = 24 and payload end 40 (regions out of canonical
order), the code ends the class region at 32 and the entry region at 24
(an empty region), while the next-greater offsets are 24 and 32; the
code only matches the next-greater rule when the offsets are already in
ascending order. -/
theorem morx_region_ends_mismatch :
    rearrangementRegionEnds 16 32 24 40 = some (32, 40, 24) ∧
    nextGreaterEnd 16 [32, 24] 40 = 24 ∧
    nextGreaterEnd 32 [16, 24] 40 = 40 ∧
    nextGreaterEnd 24 [16, 32] 40 = 32 ∧
    rearrangementRegionEnds 16 24 32 40 = some (24, 32, 40) ∧
    contextualRegionEnds 20 40 28 34 48 = some (40, 48, 28, 34) ∧
    nextGreaterEnd 28 [20, 40, 34] 48 = 34 ∧
    nextGreaterEnd 34 [20, 40, 28] 48 = 40 := by
  decide

-- Glyph tables (src/glyf.rs).

/-- EndPointsIter state (src/glyf.rs lines 212-217). -/
structure EndPointsIter where
  endpointsBuf : ByteSeq
  index : Nat
  left : Nat
deriving Repr, DecidableEq

/-- FlagsIter state (src/glyf.rs lines 249-254). -/
structure FlagsIter where
  stream : Stream
  repeats : Nat
  flags : Nat
deriving Repr, DecidableEq

/-- CoordsIter state (src/glyf.rs lines 285-289). -/
structure CoordsIter where
  stream : Stream
  prev : Int
deriving Repr, DecidableEq

/-- GlyphPointsIter (src/glyf.rs lines 171-178). -/
structure GlyphPointsIter where
  endpoints : EndPointsIter
  flags : FlagsIter
  xCoords : CoordsIter
  yCoords : CoordsIter
  pointsLeft : Nat
deriving Repr, DecidableEq

/-- SimpleGlyphTable (src/glyf.rs lines 121-131), with the LazyArray
fields kept as their byte regions. -/
structure SimpleGlyphTable where
  endPtsOfContoursBuf : ByteSeq
  instructionLength : Nat
  instructionsBuf : ByteSeq
  glyphPointsIter : GlyphPointsIter
deriving Repr, DecidableEq

/-- CompositeGlyphTable (src/glyf.rs lines 433-437): the component
component iterator stream plus the loca table and the glyf byte region needed to
resolve child glyphs. -/
structure CompositeGlyphTable where
  iterStream : Stream
  loca : LocaTable
  glyfData : ByteSeq
deriving Repr, DecidableEq

/-- GlyphTable (src/glyf.rs lines 106-109). -/
inductive GlyphTable where
  | simple (table : SimpleGlyphTable)
  | composite (table : CompositeGlyphTable)
deriving Repr, DecidableEq

/-- GlyphTable::get_glyph_points_iter (src/glyf.rs lines 113-118): the
Simple arm returns the stored iterator; the Composite arm is todo!(),
which terminates the process. -/
def GlyphTable.get_glyph_points_iter : GlyphTable → PRes GlyphPointsIter
  | .simple table => .ok table.glyphPointsIter
  | .composite _ => .panic

/-- C8 (amended): composite-glyph point decoding is unimplemented — for
every composite glyph the accessor panics via todo!(), and for every
simple glyph it returns the stored point iterator; no recursion over
component references ever happens and no cycle is rejected with a
failure result. -/
theorem glyf_composite_points_unimplemented :
    (∀ t : CompositeGlyphTable, GlyphTable.get_glyph_points_iter (.composite t) = .panic) ∧
    (∀ t : SimpleGlyphTable,
      GlyphTable.get_glyph_points_iter (.simple t) = .ok t.glyphPointsIter) := by
  exact ⟨fun _ => rfl, fun _ => rfl⟩

/-- C8 counterexample: on a concrete composite glyph (empty component
stream, empty loca and glyf), decoding the points terminates the process
instead of returning a failure result. -/
theorem glyf_composite_points_panic :
    GlyphTable.get_glyph_points_iter (.composite ⟨⟨[], 0⟩, .short [], []⟩) = .panic ∧
    GlyphTable.get_glyph_points_iter (.composite ⟨⟨[], 0⟩, .short [], []⟩) ≠ .fail := by
  decide

-- Byte-level parsing of the cmap format-4 subtable header (src/cmap.rs),
-- the morx chain header (src/morx.rs) and the sfnt version check
-- (src/table.rs), with assert! failures modelled as PRes.panic.

/-- Stream::set_len: shrink the region to its first len bytes; when len
exceeds the region the Option result is negative and the region is left
unchanged (src/decoder.rs lines 308-311). -/
def Stream.setLen (s : Stream) (len : Nat) : Option Unit × Stream :=
  match sliceGet s.data 0 len with
  | some d => (some (), { s with data := d })
  | none => (none, s)

/-- Stream::get_tail: the bytes from the cursor to the end of the region. -/
def Stream.tail (s : Stream) : Option ByteSeq :=
  sliceGet s.data s.offset s.data.length

/-- CmapSubtableFormat4 (src/cmap.rs lines 94-108), with each LazyArray
field kept as its byte region. -/
structure CmapSubtableFormat4 where
  format : Nat
  length : Nat
  language : Nat
  segCountX2 : Nat
  searchRange : Nat
  entrySelector : Nat
  rangeShift : Nat
  reservedPad : Nat
  endCodeBuf : ByteSeq
  startCodeBuf : ByteSeq
  idDeltaBuf : ByteSeq
  idRangeOffsetsBuf : ByteSeq
  glyphIdArrayBuf : ByteSeq
deriving Repr, DecidableEq

/-- The endCode field as the LazyArray of u16 the source stores. -/
def CmapSubtableFormat4.endCode (t : CmapSubtableFormat4) : LazyArray Nat :=
  mkU16Array t.endCodeBuf

/-- The startCode field as the LazyArray of u16 the source stores. -/
def CmapSubtableFormat4.startCode (t : CmapSubtableFormat4) : LazyArray Nat :=
  mkU16Array t.startCodeBuf

/-- The idDelta field as the LazyArray of i16 the source stores. -/
def CmapSubtableFormat4.idDelta (t : CmapSubtableFormat4) : LazyArray Int :=
  mkI16Array t.idDeltaBuf

/-- The idRangeOffsets field as the LazyArray of u16 the source stores. -/
def CmapSubtableFormat4.idRangeOffsets (t : CmapSubtableFormat4) : LazyArray Nat :=
  mkU16Array t.idRangeOffsetsBuf

/-- The glyphIdArray field as the LazyArray of u16 the source stores. -/
def CmapSubtableFormat4.glyphIdArray (t : CmapSubtableFormat4) : LazyArray Nat :=
  mkU16Array t.glyphIdArrayBuf

/-- CmapSubtableFormat4::parse (src/cmap.rs lines 112-146): the set_len
result is discarded by the caller; endCode.last().unwrap() and the two
assert_eq! checks (last endCode = 0xFFFF, reservedPad = 0) panic on
violation. -/
def CmapSubtableFormat4.parse (data : ByteSeq) : PRes CmapSubtableFormat4 :=
  let s0 : Stream := ⟨data, 0⟩
  match s0.readU16 with
  | (none, _) => .fail
  | (some format, s1) =>
  match s1.readU16 with
  | (none, _) => .fail
  | (some length, s2) =>
  let s3 := (s2.setLen length).2
  match s3.readU16 with
  | (none, _) => .fail
  | (some language, s4) =>
  match s4.readU16 with
  | (none, _) => .fail
  | (some segCountX2, s5) =>
  let segCount := segCountX2 / 2
  match s5.readU16 with
  | (none, _) => .fail
  | (some searchRange, s6) =>
  match s6.readU16 with
  | (none, _) => .fail
  | (some entrySelector, s7) =>
  match s7.readU16 with
  | (none, _) => .fail
  | (some rangeShift, s8) =>
  match s8.readBytes (segCount * 2) with
  | (none, _) => .fail
  | (some endCodeBuf, s9) =>
  match (mkU16Array endCodeBuf).last with
  | none => .panic
  | some lastEndCode =>
  if lastEndCode ≠ 0xFFFF then .panic
  else
  match s9.readU16 with
  | (none, _) => .fail
  | (some reservedPad, s10) =>
  if reservedPad ≠ 0 then .panic
  else
  match s10.readBytes (segCount * 2) with
  | (none, _) => .fail
  | (some startCodeBuf, s11) =>
  match s11.readBytes (segCount * 2) with
  | (none, _) => .fail
  | (some idDeltaBuf, s12) =>
  match s12.readBytes (segCount * 2) with
  | (none, _) => .fail
  | (some idRangeOffsetsBuf, s13) =>
  match s13.tail with
  | none => .fail
  | some glyphIdArrayBuf =>
    .ok ⟨format, length, language, segCountX2, searchRange, entrySelector, rangeShift,
      reservedPad, endCodeBuf, startCodeBuf, idDeltaBuf, idRangeOffsetsBuf, glyphIdArrayBuf⟩

/-- ChainHeader (src/morx.rs lines 111-116). -/
structure ChainHeader where
  defaultFlags : Nat
  chainLength : Nat
  nFeatureEntries : Nat
  nSubtables : Nat
deriving Repr, DecidableEq

/-- ChainHeader::parse (src/morx.rs lines 121-138): asserts that
chainLength is a multiple of 4 and that the two counts are positive. -/
def ChainHeader.parse (data : ByteSeq) : PRes ChainHeader :=
  let s0 : Stream := ⟨data, 0⟩
  match s0.readU32 with
  | (none, _) => .fail
  | (some defaultFlags, s1) =>
  match s1.readU32 with
  | (none, _) => .fail
  | (some chainLength, s2) =>
  match s2.readU32 with
  | (none, _) => .fail
  | (some nFeatureEntries, s3) =>
  match s3.readU32 with
  | (none, _) => .fail
  | (some nSubtables, _) =>
  if chainLength % 4 ≠ 0 then .panic
  else if nFeatureEntries = 0 then .panic
  else if nSubtables = 0 then .panic
  else .ok ⟨defaultFlags, chainLength, nFeatureEntries, nSubtables⟩

/-- check_sfnt_version (src/table.rs lines 76-84): asserts that the
version tag is 0x00010000 (TrueType) or OTTO = 0x4F54544F (CFF). -/
def check_sfnt_version (sfntVersion : Nat) : PRes Unit :=
  if sfntVersion = 0x00010000 ∨ sfntVersion = 0x4F54544F then .ok () else .panic

/-- C6 (amended): truncation is surfaced as None and valid versions pass,
but each cited structural violation terminates the process: a cmap
format-4 subtable whose last endCode is not 0xFFFF panics, a morx chain
header whose chainLength is not a multiple of 4 panics, and an unknown
sfntVersion panics, rather than returning a negative result. -/
theorem structural_violations_terminate_process :
    CmapSubtableFormat4.parse
      [0, 4, 0, 24, 0, 0, 0, 2, 0, 2, 0, 0, 0, 0,
       0x12, 0x34, 0, 0, 0, 0, 0, 0, 0, 0] = .panic ∧
    CmapSubtableFormat4.parse
      [0, 4, 0, 24, 0, 0, 0, 2, 0, 2, 0, 0, 0, 0,
       0xFF, 0xFF, 0, 0, 0, 0x41, 0xFF, 0xC0, 0, 0] =
      .ok ⟨4, 24, 0, 2, 2, 0, 0, 0, [0xFF, 0xFF], [0, 0x41], [0xFF, 0xC0], [0, 0], []⟩ ∧
    CmapSubtableFormat4.parse [0, 4] = .fail ∧
    ChainHeader.parse [0, 0, 0, 0, 0, 0, 0, 6, 0, 0, 0, 1, 0, 0, 0, 1] = .panic ∧
    ChainHeader.parse [0, 0, 0, 0, 0, 0, 0, 16, 0, 0, 0, 1, 0, 0, 0, 1] = .ok ⟨0, 16, 1, 1⟩ ∧
    ChainHeader.parse [0, 0, 0, 0] = .fail ∧
    check_sfnt_version 0x00020000 = .panic ∧
    check_sfnt_version 0x00010000 = .ok () ∧
    check_sfnt_version 0x4F54544F = .ok () := by
  decide

/-- C6 counterexample: a cmap format-4 subtable that is well-formed
except for reservedPad = 1 makes parse terminate the process (panic)
instead of surfacing a negative result. -/
theorem cmap4_reservedPad_violation_panics :
    CmapSubtableFormat4.parse
      [0, 4, 0, 24, 0, 0, 0, 2, 0, 2, 0, 0, 0, 0,
       0xFF, 0xFF, 0, 1, 0, 0x41, 0xFF, 0xC0, 0, 0] = .panic ∧
    CmapSubtableFormat4.parse
      [0, 4, 0, 24, 0, 0, 0, 2, 0, 2, 0, 0, 0, 0,
       0xFF, 0xFF, 0, 1, 0, 0x41, 0xFF, 0xC0, 0, 0] ≠ .fail := by
  decide

-- Morx state-array read loop (src/morx.rs lines 249-254 and 383-389).

/-- State-array read loop of MorxSubtableRearrangement::parse and
MorxSubtableContextual::parse, with explicit fuel: each iteration calls
read_array(nClasses) on the state-region stream and pushes the row; the
loop breaks when the read fails. A result of none means the loop is
still running after consuming all the fuel. -/
def readStateRows (nClasses : Nat) :
    Nat → Stream → List (LazyArray Nat) → Option (List (LazyArray Nat))
  | 0, _, _ => none
  | fuel + 1, s, acc =>
    match s.readArrayU16 nClasses with
    | (none, _) => some acc
    | (some row, s2) => readStateRows nClasses fuel s2 (acc ++ [row])

theorem readArrayU16_some_bound (s : Stream) (count : Nat) (row : LazyArray Nat)
    (s2 : Stream) (h : s.readArrayU16 count = (some row, s2)) :
    s.offset + count * 2 ≤ s.data.length ∧ s2.data = s.data ∧
    s2.offset = s.offset + count * 2 := by
  unfold Stream.readArrayU16 Stream.readBytes at h
  simp only at h
  have h1 := congrArg Prod.fst h
  have h2 := congrArg Prod.snd h
  simp only at h1 h2
  refine ⟨?_, ?_, ?_⟩
  · by_contra hc
    push_neg at hc
    unfold sliceGet at h1
    rw [if_neg (by omega)] at h1
    cases h1
  · rw [← h2]
  · rw [← h2]

/-- C5: with nClasses = 0 the state-array loop never terminates — every
read_array(0) call succeeds without advancing the cursor, so no amount
of fuel finishes the loop — while for positive nClasses the loop always
terminates within a fuel budget linear in the state-region size. -/
theorem morx_state_array_loop_termination :
    (∀ fuel s acc, s.offset ≤ s.data.length →
      readStateRows 0 fuel s acc = none) ∧
    (∀ n fuel s acc, s.data.length - s.offset < fuel * (n * 2) →
      (readStateRows n fuel s acc).isSome) ∧
    (∀ n s acc, 0 < n → (readStateRows n (s.data.length + 1) s acc).isSome) := by
  have part2 : ∀ n fuel s acc, s.data.length - s.offset < fuel * (n * 2) →
      (readStateRows n fuel s acc).isSome := by
    intro n fuel
    induction fuel with
    | zero => intro s acc h; omega
    | succ m ih =>
      intro s acc h
      unfold readStateRows
      split
      · simp
      · rename_i row s2 heq
        obtain ⟨hb, hd, ho⟩ := readArrayU16_some_bound s n row s2 heq
        apply ih
        rw [hd, ho]
        have hexp : (m + 1) * (n * 2) = m * (n * 2) + n * 2 := by ring
        omega
  refine ⟨?_, part2, ?_⟩
  · intro fuel
    induction fuel with
    | zero => intro s acc _; rfl
    | succ m ih =>
      intro s acc h
      unfold readStateRows
      have hread : s.readArrayU16 0 =
          (some (mkU16Array ((s.data.drop s.offset).take 0)), { s with offset := s.offset + 0 * 2 }) := by
        unfold Stream.readArrayU16 Stream.readBytes
        rw [sliceGet_eq_some s.data s.offset (s.offset + 0 * 2) ⟨by omega, by omega⟩]
        simp
      split
      · rename_i heq
        rw [hread] at heq
        cases heq
      · rename_i row s2 heq
        rw [hread] at heq
        cases heq
        apply ih
        simpa using h
  · intro n s acc hn
    apply part2
    have : n * 2 ≥ 2 := by omega
    have := Nat.succ_mul s.data.length (n * 2)
    calc s.data.length - s.offset ≤ s.data.length := by omega
    _ < (s.data.length + 1) * (n * 2) := by nlinarith

-- CmapSubtableFormat4::get_glyph_id (src/cmap.rs lines 148-203).

/-- Reinterpretation of an i16 value as a u16 bit pattern, as in the
source expression id_delta as u16. -/
def i16AsU16 (x : Int) : Nat :=
  (x % 65536).toNat

/-- Body of get_glyph_id once the binary search has found the segment mid
containing the code point (src/cmap.rs lines 171-200): idRangeOffsets
and idDelta are read with ?, a zero idRangeOffset yields the wrapping
sum, and otherwise the glyphIdArray is indexed — where the usize
subtraction underflows (panics) when idRangeOffset / 2 is smaller than
segCount - mid. -/
def cmapSegmentResult (t : CmapSubtableFormat4) (c mid startCp : Nat) : PRes Nat :=
  match t.idRangeOffsets.get mid with
  | none => .fail
  | some ro =>
    match t.idDelta.get mid with
    | none => .fail
    | some delta =>
      if ro = 0 then .ok ((c + i16AsU16 delta) % 65536)
      else
        if ro / 2 < t.idRangeOffsets.len - mid then .panic
        else
          match t.glyphIdArray.get (ro / 2 - (t.idRangeOffsets.len - mid) + (c - startCp)) with
          | none => .fail
          | some g => .ok g

/-- Binary-search loop of get_glyph_id (src/cmap.rs lines 153-201):
endCode.get(mid) is read with ?, startCode.get(mid) with unwrap (panic
on failure); falling out of the loop returns glyph 0 (notdef). -/
def cmapSearchLoop (t : CmapSubtableFormat4) (c : Nat) (start e : Nat) : PRes Nat :=
  if start < e then
    match t.endCode.get ((start + e) / 2) with
    | none => .fail
    | some endCp =>
      if endCp < c then cmapSearchLoop t c ((start + e) / 2 + 1) e
      else
        match t.startCode.get ((start + e) / 2) with
        | none => .panic
        | some startCp =>
          if c < startCp then cmapSearchLoop t c start ((start + e) / 2)
          else cmapSegmentResult t c ((start + e) / 2) startCp
  else .ok 0
termination_by e - start
decreasing_by
  · omega
  · omega

/-- CmapSubtableFormat4::get_glyph_id: code points at or above 2^16 fail
the u16 conversion and return None; otherwise the binary search runs
over start = 0, end = startCode.len(). -/
def CmapSubtableFormat4.get_glyph_id (t : CmapSubtableFormat4) (codePoint : Nat) : PRes Nat :=
  if codePoint < 65536 then cmapSearchLoop t codePoint 0 t.startCode.len else .fail

/-- Number of segments: the length of the startCode array, as used by
get_glyph_id. -/
def CmapSubtableFormat4.segCount (t : CmapSubtableFormat4) : Nat :=
  t.startCode.len

/-- Value of endCode[i]. -/
def CmapSubtableFormat4.endVal (t : CmapSubtableFormat4) (i : Nat) : Nat :=
  (t.endCode.get i).getD 0

/-- Value of startCode[i]. -/
def CmapSubtableFormat4.startVal (t : CmapSubtableFormat4) (i : Nat) : Nat :=
  (t.startCode.get i).getD 0

/-- Value of idRangeOffsets[i]. -/
def CmapSubtableFormat4.roVal (t : CmapSubtableFormat4) (i : Nat) : Nat :=
  (t.idRangeOffsets.get i).getD 0

/-- Value of idDelta[i]. -/
def CmapSubtableFormat4.deltaVal (t : CmapSubtableFormat4) (i : Nat) : Int :=
  (t.idDelta.get i).getD 0

/-- Well-formedness of a parsed format-4 subtable: the four parallel
arrays have equal byte lengths, each segment is nonempty
(startCode[i] ≤ endCode[i]) and consecutive segments are disjoint and
ordered (endCode[i] < startCode[i+1]). -/
def Format4Sorted (t : CmapSubtableFormat4) : Prop :=
  t.endCodeBuf.length = t.startCodeBuf.length ∧
  t.idDeltaBuf.length = t.startCodeBuf.length ∧
  t.idRangeOffsetsBuf.length = t.startCodeBuf.length ∧
  (∀ i, i < t.segCount → t.startVal i ≤ t.endVal i) ∧
  (∀ i, i < t.segCount - 1 → t.endVal i < t.startVal (i + 1))

instance (t : CmapSubtableFormat4) : Decidable (Format4Sorted t) := by
  unfold Format4Sorted
  infer_instance

/-- The concrete single-real-segment subtable of the scenario in the
specification: startCode = [0x0041, 0xFFFF], endCode = [0x005A, 0xFFFF],
idDelta = [-0x0040, 1], idRangeOffsets = [0, 0]. -/
def cmapEx : CmapSubtableFormat4 :=
  ⟨4, 32, 0, 4, 4, 1, 0, 0,
   [0x00, 0x5A, 0xFF, 0xFF], [0x00, 0x41, 0xFF, 0xFF],
   [0xFF, 0xC0, 0x00, 0x01], [0, 0, 0, 0], []⟩

example : Format4Sorted cmapEx := by decide

theorem option_some_getD {α : Type} (o : Option α) (d : α) (h : o.isSome) :
    o = some (o.getD d) := by
  cases o with
  | none => cases h
  | some v => rfl

theorem mkU16Array_get_isSome (b : ByteSeq) (i : Nat) (h : i < (mkU16Array b).len) :
    ((mkU16Array b).get i).isSome := by
  have hl : i < b.length / 2 := h
  unfold LazyArray.get
  rw [if_pos h]
  show ((sliceGet b (i * 2) (i * 2 + 2)).bind parseU16).isSome
  rw [sliceGet_eq_some b (i * 2) (i * 2 + 2) ⟨by omega, by omega⟩]
  have h2 : ((b.drop (i * 2)).take (i * 2 + 2 - i * 2)).length = 2 := by
    rw [List.length_take, List.length_drop]
    omega
  obtain ⟨x, y, hxy⟩ := List.length_eq_two.mp h2
  rw [hxy]
  simp [parseU16]

theorem mkI16Array_get_isSome (b : ByteSeq) (i : Nat) (h : i < (mkI16Array b).len) :
    ((mkI16Array b).get i).isSome := by
  have hl : i < b.length / 2 := h
  unfold LazyArray.get
  rw [if_pos h]
  show ((sliceGet b (i * 2) (i * 2 + 2)).bind parseI16).isSome
  rw [sliceGet_eq_some b (i * 2) (i * 2 + 2) ⟨by omega, by omega⟩]
  have h2 : ((b.drop (i * 2)).take (i * 2 + 2 - i * 2)).length = 2 := by
    rw [List.length_take, List.length_drop]
    omega
  obtain ⟨x, y, hxy⟩ := List.length_eq_two.mp h2
  rw [hxy]
  simp [parseI16, parseU16]

theorem endCode_get_eq (t : CmapSubtableFormat4) (hs : Format4Sorted t)
    (i : Nat) (hi : i < t.segCount) : t.endCode.get i = some (t.endVal i) := by
  apply option_some_getD
  apply mkU16Array_get_isSome
  have h1 := hs.1
  have h2 : t.segCount = t.startCodeBuf.length / 2 := rfl
  show i < t.endCodeBuf.length / 2
  omega

theorem startCode_get_eq (t : CmapSubtableFormat4)
    (i : Nat) (hi : i < t.segCount) : t.startCode.get i = some (t.startVal i) := by
  apply option_some_getD
  exact mkU16Array_get_isSome _ i hi

theorem roVal_get_eq (t : CmapSubtableFormat4) (hs : Format4Sorted t)
    (i : Nat) (hi : i < t.segCount) : t.idRangeOffsets.get i = some (t.roVal i) := by
  apply option_some_getD
  apply mkU16Array_get_isSome
  have h1 := hs.2.2.1
  have h2 : t.segCount = t.startCodeBuf.length / 2 := rfl
  show i < t.idRangeOffsetsBuf.length / 2
  omega

theorem deltaVal_get_eq (t : CmapSubtableFormat4) (hs : Format4Sorted t)
    (i : Nat) (hi : i < t.segCount) : t.idDelta.get i = some (t.deltaVal i) := by
  apply option_some_getD
  apply mkI16Array_get_isSome
  have h1 := hs.2.1
  have h2 : t.segCount = t.startCodeBuf.length / 2 := rfl
  show i < t.idDeltaBuf.length / 2
  omega

theorem endVal_lt_startVal (t : CmapSubtableFormat4) (hs : Format4Sorted t) :
    ∀ k, k < t.segCount → ∀ j, j < k → t.endVal j < t.startVal k := by
  obtain ⟨-, -, -, hse, hdisj⟩ := hs
  intro k
  induction k with
  | zero => intro _ j hj; omega
  | succ m ih =>
    intro hk j hj
    rcases Nat.lt_succ_iff_lt_or_eq.mp hj with hlt | heq
    · have h1 := ih (by omega) j hlt
      have h2 := hse m (by omega)
      have h3 := hdisj m (by omega)
      omega
    · subst heq
      exact hdisj j (by omega)

theorem cmapSearchLoop_no_contain (t : CmapSubtableFormat4) (c : Nat)
    (hs : Format4Sorted t)
    (hno : ∀ j, j < t.segCount → ¬ (t.startVal j ≤ c ∧ c ≤ t.endVal j)) :
    ∀ n start e, e - start ≤ n → e ≤ t.segCount → cmapSearchLoop t c start e = .ok 0 := by
  intro n
  induction n with
  | zero =>
    intro start e hm he
    rw [cmapSearchLoop, if_neg (by omega)]
  | succ m ih =>
    intro start e hm he
    by_cases hlt : start < e
    · rw [cmapSearchLoop, if_pos hlt]
      have hmidlt : (start + e) / 2 < e := by omega
      have hmidge : start ≤ (start + e) / 2 := by omega
      have hmseg : (start + e) / 2 < t.segCount := by omega
      split
      · rename_i hE
        rw [endCode_get_eq t hs _ hmseg] at hE
        cases hE
      · rename_i endCp hE
        rw [endCode_get_eq t hs _ hmseg] at hE
        injection hE with hE
        subst hE
        by_cases h1 : t.endVal ((start + e) / 2) < c
        · rw [if_pos h1]
          exact ih ((start + e) / 2 + 1) e (by omega) he
        · rw [if_neg h1]
          split
          · rename_i hS
            rw [startCode_get_eq t _ hmseg] at hS
            cases hS
          · rename_i startCp hS
            rw [startCode_get_eq t _ hmseg] at hS
            injection hS with hS
            subst hS
            by_cases h2 : c < t.startVal ((start + e) / 2)
            · rw [if_pos h2]
              exact ih start ((start + e) / 2) (by omega) (by omega)
            · exact absurd ⟨by omega, by omega⟩ (hno _ hmseg)
    · rw [cmapSearchLoop, if_neg hlt]

theorem cmapSearchLoop_finds (t : CmapSubtableFormat4) (hs : Format4Sorted t)
    (c i : Nat) (hi : i < t.segCount)
    (hc1 : t.startVal i ≤ c) (hc2 : c ≤ t.endVal i) :
    ∀ n start e, e - start ≤ n → start ≤ i → i < e → e ≤ t.segCount →
      cmapSearchLoop t c start e = cmapSegmentResult t c i (t.startVal i) := by
  have hse := hs.2.2.2.1
  intro n
  induction n with
  | zero =>
    intro start e hm h1 h2 h3
    exfalso
    omega
  | succ m ih =>
    intro start e hm h1 h2 h3
    rw [cmapSearchLoop, if_pos (by omega)]
    have hmidlt : (start + e) / 2 < e := by omega
    have hmidge : start ≤ (start + e) / 2 := by omega
    have hmseg : (start + e) / 2 < t.segCount := by omega
    split
    · rename_i hE
      rw [endCode_get_eq t hs _ hmseg] at hE
      cases hE
    · rename_i endCp hE
      rw [endCode_get_eq t hs _ hmseg] at hE
      injection hE with hE
      subst hE
      by_cases hord : t.endVal ((start + e) / 2) < c
      · have hmi : (start + e) / 2 < i := by
          by_contra hcon
          push_neg at hcon
          rcases Nat.lt_or_ge i ((start + e) / 2) with hlt2 | hge
          · have ha := endVal_lt_startVal t hs ((start + e) / 2) hmseg i hlt2
            have hb := hse ((start + e) / 2) hmseg
            omega
          · have : i = (start + e) / 2 := by omega
            subst this
            omega
        rw [if_pos hord]
        exact ih ((start + e) / 2 + 1) e (by omega) (by omega) h2 h3
      · rw [if_neg hord]
        split
        · rename_i hS
          rw [startCode_get_eq t _ hmseg] at hS
          cases hS
        · rename_i startCp hS
          rw [startCode_get_eq t _ hmseg] at hS
          injection hS with hS
          subst hS
          by_cases h2c : c < t.startVal ((start + e) / 2)
          · have hmi : i < (start + e) / 2 := by
              by_contra hcon
              push_neg at hcon
              rcases Nat.lt_or_ge ((start + e) / 2) i with hlt2 | hge
              · have ha := endVal_lt_startVal t hs i hi ((start + e) / 2) hlt2
                have hb := hse ((start + e) / 2) hmseg
                omega
              · have : (start + e) / 2 = i := by omega
                rw [this] at h2c
                omega
            rw [if_pos h2c]
            exact ih start ((start + e) / 2) (by omega) h1 hmi (by omega)
          · have hmi : (start + e) / 2 = i := by
              by_contra hne
              rcases Nat.lt_or_ge ((start + e) / 2) i with hlt2 | hge
              · have ha := endVal_lt_startVal t hs i hi ((start + e) / 2) hlt2
                omega
              · have hgt : i < (start + e) / 2 := by omega
                have ha := endVal_lt_startVal t hs ((start + e) / 2) hmseg i hgt
                omega
            rw [if_neg h2c, hmi]

theorem i16AsU16_wrap (c : Nat) (d : Int) :
    ((c + i16AsU16 d) % 65536 : Nat) = (((c : Int) + d) % 65536).toNat := by
  unfold i16AsU16
  omega

/-- C2: on a well-formed format-4 subtable, get_glyph_id returns None
for code points at or above 2^16; returns glyph 0 (notdef) when the
smallest segment i with endCode[i] ≥ c has startCode[i] > c; and when
the containing segment has idRangeOffset 0 it returns
(c + idDelta[i]) mod 2^16 — in particular the single-segment scenario
of the spec maps 0x41 to 1, 0x5A to 0x1A, 0x61 to notdef and 0x10000 to
None. -/
theorem cmap4_get_glyph_id_spec :
    (∀ (t : CmapSubtableFormat4) (c : Nat), 65536 ≤ c → t.get_glyph_id c = .fail) ∧
    (∀ (t : CmapSubtableFormat4) (c i : Nat), Format4Sorted t → c < 65536 →
      i < t.segCount → c ≤ t.endVal i → (∀ j, j < i → t.endVal j < c) →
      c < t.startVal i → t.get_glyph_id c = .ok 0) ∧
    (∀ (t : CmapSubtableFormat4) (c i : Nat), Format4Sorted t → c < 65536 →
      i < t.segCount → t.startVal i ≤ c → c ≤ t.endVal i → t.roVal i = 0 →
      t.get_glyph_id c = .ok (((c : Int) + t.deltaVal i) % 65536).toNat) ∧
    cmapEx.get_glyph_id 0x41 = .ok 1 ∧
    cmapEx.get_glyph_id 0x5A = .ok 0x1A ∧
    cmapEx.get_glyph_id 0x61 = .ok 0 ∧
    cmapEx.get_glyph_id 0x10000 = .fail := by
  have part1 : ∀ (t : CmapSubtableFormat4) (c : Nat), 65536 ≤ c → t.get_glyph_id c = .fail := by
    intro t c h
    unfold CmapSubtableFormat4.get_glyph_id
    rw [if_neg (by omega)]
  have part2 : ∀ (t : CmapSubtableFormat4) (c i : Nat), Format4Sorted t → c < 65536 →
      i < t.segCount → c ≤ t.endVal i → (∀ j, j < i → t.endVal j < c) →
      c < t.startVal i → t.get_glyph_id c = .ok 0 := by
    intro t c i hs hc hi hce hsmall hcs
    unfold CmapSubtableFormat4.get_glyph_id
    rw [if_pos hc]
    apply cmapSearchLoop_no_contain t c hs ?_ t.startCode.len 0 t.startCode.len le_rfl le_rfl
    intro j hj hcon
    rcases Nat.lt_trichotomy j i with hlt | heq | hgt
    · have := hsmall j hlt
      omega
    · subst heq
      omega
    · have h1 := hs.2.2.2.1 i hi
      have h2 := endVal_lt_startVal t hs j hj i hgt
      omega
  have part3 : ∀ (t : CmapSubtableFormat4) (c i : Nat), Format4Sorted t → c < 65536 →
      i < t.segCount → t.startVal i ≤ c → c ≤ t.endVal i → t.roVal i = 0 →
      t.get_glyph_id c = .ok (((c : Int) + t.deltaVal i) % 65536).toNat := by
    intro t c i hs hc hi h1 h2 hro
    unfold CmapSubtableFormat4.get_glyph_id
    rw [if_pos hc]
    rw [cmapSearchLoop_finds t hs c i hi h1 h2 t.startCode.len 0 t.startCode.len
      le_rfl (by omega) hi le_rfl]
    unfold cmapSegmentResult
    rw [roVal_get_eq t hs i hi, deltaVal_get_eq t hs i hi]
    show (if t.roVal i = 0 then PRes.ok ((c + i16AsU16 (t.deltaVal i)) % 65536) else _) = _
    rw [if_pos hro, i16AsU16_wrap]
  refine ⟨part1, part2, part3, ?_, ?_, ?_, ?_⟩
  · rw [part3 cmapEx 0x41 0 (by decide) (by decide) (by decide) (by decide)
      (by decide) (by decide)]
    decide
  · rw [part3 cmapEx 0x5A 0 (by decide) (by decide) (by decide) (by decide)
      (by decide) (by decide)]
    decide
  · exact part2 cmapEx 0x61 1 (by decide) (by decide) (by decide) (by decide)
      (by decide) (by decide)
  · exact part1 cmapEx 0x10000 (by decide)

-- LazyArray::binary_search_by (src/decoder.rs lines 165-189).

/-- Loop of LazyArray::binary_search_by: while size > 1, probe
mid = base + size / 2 with ?, keep base exactly when the comparator
answers Greater and move base to mid otherwise, and shrink size by
size / 2; at the end the element at base is checked for Equal. -/
def bsLoop {α : Type} (a : LazyArray α) (f : α → Ordering) (base size : Nat) :
    Option (Nat × α) :=
  if _h : 1 < size then
    match a.get (base + size / 2) with
    | none => none
    | some v => bsLoop a f (if f v = .gt then base else base + size / 2) (size - size / 2)
  else
    match a.get base with
    | none => none
    | some v => if f v = .eq then some (base, v) else none
termination_by size
decreasing_by omega

/-- LazyArray::binary_search_by: none on the empty array, else the loop
from base = 0, size = len. -/
def LazyArray.binary_search_by {α : Type} (a : LazyArray α) (f : α → Ordering) :
    Option (Nat × α) :=
  if a.len = 0 then none else bsLoop a f 0 a.len

theorem LazyArray.get_some_lt {α : Type} (a : LazyArray α) (i : Nat) (v : α)
    (h : a.get i = some v) : i < a.len := by
  unfold LazyArray.get at h
  by_cases hc : i < a.len
  · exact hc
  · rw [if_neg hc] at h
    cases h

theorem bsLoop_none_of_no_eq {α : Type} (a : LazyArray α) (f : α → Ordering)
    (hne : ∀ i v, a.get i = some v → f v ≠ .eq) :
    ∀ size base, bsLoop a f base size = none := by
  intro size
  induction size using Nat.strong_induction_on with
  | _ size ih =>
    intro base
    rw [bsLoop]
    split
    · rename_i h1
      split
      · rfl
      · rename_i v hv
        exact ih (size - size / 2) (by omega) _
    · split
      · rfl
      · rename_i v hv
        rw [if_neg (hne base v hv)]

theorem bsLoop_some_sound {α : Type} (a : LazyArray α) (f : α → Ordering) :
    ∀ size base i v, bsLoop a f base size = some (i, v) →
      a.get i = some v ∧ f v = .eq := by
  intro size
  induction size using Nat.strong_induction_on with
  | _ size ih =>
    intro base i v h
    rw [bsLoop] at h
    split at h
    · rename_i h1
      split at h
      · cases h
      · exact ih (size - size / 2) (by omega) _ i v h
    · split at h
      · cases h
      · rename_i w hw
        split at h
        · rename_i heq
          cases h
          exact ⟨hw, heq⟩
        · cases h

theorem bsLoop_finds_sorted {α : Type} (a : LazyArray α) (k : α → Nat) (tg : Nat)
    (htotal : ∀ i, i < a.len → (a.get i).isSome)
    (hsorted : ∀ j l vj vl, j < l → l < a.len →
      a.get j = some vj → a.get l = some vl → k vj < k vl)
    (i : Nat) (v : α) (hi : i < a.len) (hv : a.get i = some v) (hk : k v = tg) :
    ∀ size base, 0 < size → base ≤ i → i < base + size → base + size ≤ a.len →
      bsLoop a (fun x => compare (k x) tg) base size = some (i, v) := by
  intro size
  induction size using Nat.strong_induction_on with
  | _ size ih =>
    intro base hpos hb1 hb2 hb3
    rw [bsLoop]
    split
    · rename_i hgt1
      have hmid : base + size / 2 < a.len := by omega
      obtain ⟨w, hw⟩ := Option.isSome_iff_exists.mp (htotal _ hmid)
      simp only [hw]
      by_cases hcmp : tg < k w
      · have hfw : compare (k w) tg = .gt := Nat.compare_eq_gt.mpr hcmp
        rw [if_pos hfw]
        have himid : i < base + size / 2 := by
          rcases Nat.lt_trichotomy i (base + size / 2) with hx | hx | hx
          · exact hx
          · exfalso
            rw [hx, hw] at hv
            injection hv with hv
            rw [hv] at hcmp
            omega
          · exfalso
            have := hsorted _ _ _ _ hx hi hw hv
            omega
        exact ih (size - size / 2) (by omega) base (by omega) hb1 (by omega) (by omega)
      · have hfw : compare (k w) tg ≠ .gt := by
          intro hcon
          exact hcmp (Nat.compare_eq_gt.mp hcon)
        rw [if_neg hfw]
        have himid : base + size / 2 ≤ i := by
          by_contra hcon
          push_neg at hcon
          have := hsorted _ _ _ _ hcon hmid hv hw
          omega
        exact ih (size - size / 2) (by omega) (base + size / 2) (by omega) himid
          (by omega) (by omega)
    · rename_i hle
      have hib : i = base := by omega
      subst hib
      simp only [hv]
      have hfe : compare (k v) tg = .eq := Nat.compare_eq_eq.mpr hk
      rw [if_pos hfe]

/-- TableRecord (src/table.rs lines 88-93). -/
structure TableRecord where
  tableTag : Nat
  checksum : Nat
  offset : Nat
  length : Nat
deriving Repr, DecidableEq

/-- FromData for TableRecord (src/table.rs lines 95-106): four
big-endian u32 reads over a 16-byte slice. -/
def parseTableRecord (d : ByteSeq) : Option TableRecord :=
  let s0 : Stream := ⟨d, 0⟩
  match s0.readU32 with
  | (none, _) => none
  | (some tag, s1) =>
  match s1.readU32 with
  | (none, _) => none
  | (some checksum, s2) =>
  match s2.readU32 with
  | (none, _) => none
  | (some ofs, s3) =>
  match s3.readU32 with
  | (none, _) => none
  | (some len, _) => some ⟨tag, checksum, ofs, len⟩

/-- LazyArray of table records, 16 bytes per element. -/
def mkTableRecordArray (b : ByteSeq) : LazyArray TableRecord :=
  ⟨b, 16, parseTableRecord⟩

/-- C9: binary_search_by is total and defensive — it returns none
whenever the comparator never answers Equal on any element of the
array, and any hit it returns is a real element on which the comparator
answers Equal — and on an array strictly sorted by a key (in particular
a table-record array sorted by tag) searching for tag tg returns
some (i, v) exactly when the element at index i exists and has key tg. -/
theorem lazyArray_binary_search_spec :
    (∀ (α : Type) (a : LazyArray α) (f : α → Ordering),
      (∀ i v, a.get i = some v → f v ≠ .eq) → a.binary_search_by f = none) ∧
    (∀ (α : Type) (a : LazyArray α) (f : α → Ordering) (i : Nat) (v : α),
      a.binary_search_by f = some (i, v) → a.get i = some v ∧ f v = .eq) ∧
    (∀ (α : Type) (a : LazyArray α) (k : α → Nat) (tg : Nat),
      (∀ i, i < a.len → (a.get i).isSome) →
      (∀ j l vj vl, j < l → l < a.len →
        a.get j = some vj → a.get l = some vl → k vj < k vl) →
      ∀ i v, (a.binary_search_by (fun x => compare (k x) tg) = some (i, v) ↔
        (i < a.len ∧ a.get i = some v ∧ k v = tg))) ∧
    (∀ (a : LazyArray TableRecord) (tg : Nat),
      (∀ i, i < a.len → (a.get i).isSome) →
      (∀ j l vj vl, j < l → l < a.len →
        a.get j = some vj → a.get l = some vl → vj.tableTag < vl.tableTag) →
      ∀ i v, (a.binary_search_by (fun r => compare r.tableTag tg) = some (i, v) ↔
        (i < a.len ∧ a.get i = some v ∧ v.tableTag = tg))) := by
  have sound : ∀ (α : Type) (a : LazyArray α) (f : α → Ordering) (i : Nat) (v : α),
      a.binary_search_by f = some (i, v) → a.get i = some v ∧ f v = .eq := by
    intro α a f i v h
    unfold LazyArray.binary_search_by at h
    split at h
    · cases h
    · exact bsLoop_some_sound a f a.len 0 i v h
  have sorted_iff : ∀ (α : Type) (a : LazyArray α) (k : α → Nat) (tg : Nat),
      (∀ i, i < a.len → (a.get i).isSome) →
      (∀ j l vj vl, j < l → l < a.len →
        a.get j = some vj → a.get l = some vl → k vj < k vl) →
      ∀ i v, (a.binary_search_by (fun x => compare (k x) tg) = some (i, v) ↔
        (i < a.len ∧ a.get i = some v ∧ k v = tg)) := by
    intro α a k tg htotal hsorted i v
    constructor
    · intro h
      obtain ⟨hget, heq⟩ := sound α a _ i v h
      exact ⟨a.get_some_lt i v hget, hget, Nat.compare_eq_eq.mp heq⟩
    · rintro ⟨hi, hv, hk⟩
      unfold LazyArray.binary_search_by
      rw [if_neg (by omega)]
      exact bsLoop_finds_sorted a k tg htotal hsorted i v hi hv hk a.len 0
        (by omega) (by omega) (by omega) (by omega)
  refine ⟨?_, sound, sorted_iff, ?_⟩
  · intro α a f hne
    unfold LazyArray.binary_search_by
    split
    · rfl
    · exact bsLoop_none_of_no_eq a f hne a.len 0
  · intro a tg htotal hsorted i v
    exact sorted_iff TableRecord a TableRecord.tableTag tg htotal hsorted i v

-- CmapSubtableFormat4::get_code_point_glyph_id_map (src/cmap.rs lines 205-227).

/-- Glyph id computed for code point cp of segment i inside
get_code_point_glyph_id_map: the same wrapping-delta or
glyphIdArray-index expression as in get_glyph_id, except that the
glyphIdArray access is unwrapped, so an out-of-bounds index panics
instead of returning None. -/
def mapSegGid (t : CmapSubtableFormat4) (i startCp : Nat) (delta : Int) (ro cp : Nat) :
    PRes Nat :=
  if ro = 0 then .ok ((cp + i16AsU16 delta) % 65536)
  else
    if ro / 2 < t.idRangeOffsets.len - i then .panic
    else
      match t.glyphIdArray.get (ro / 2 - (t.idRangeOffsets.len - i) + (cp - startCp)) with
      | none => .panic
      | some g => .ok g

/-- Inner loop of get_code_point_glyph_id_map over the code points
startCode[i]..=endCode[i]: each iteration computes the glyph id and
inserts it under char::from_u32(code_point).unwrap(), which panics on a
surrogate code point; cnt counts the remaining code points and the
resulting pairs are listed in insertion order. -/
def buildSegEntries (t : CmapSubtableFormat4) (i startCp : Nat) (delta : Int) (ro : Nat) :
    Nat → Nat → PRes (List (Nat × Nat))
  | 0, _ => .ok []
  | cnt + 1, cp =>
    match mapSegGid t i startCp delta ro cp with
    | .panic => .panic
    | .fail => .fail
    | .ok gid =>
      if 0xD800 ≤ cp ∧ cp < 0xE000 then .panic
      else
        match buildSegEntries t i startCp delta ro cnt (cp + 1) with
        | .ok rest => .ok ((cp, gid) :: rest)
        | .fail => .fail
        | .panic => .panic

/-- Outer loop of get_code_point_glyph_id_map: enumerate the startCode
array in order — the LazyArray iterator stops at the first failing
get — read the endCode, idDelta and idRangeOffsets of the segment with
unwrap, and append the entries of the segment in insertion order; rem is the
number of remaining iterations, startCode.len at the top-level call. -/
def buildMapAux (t : CmapSubtableFormat4) : Nat → Nat → PRes (List (Nat × Nat))
  | 0, _ => .ok []
  | rem + 1, i =>
    match t.startCode.get i with
    | none => .ok []
    | some startCp =>
      match t.endCode.get i with
      | none => .panic
      | some endCp =>
        match t.idDelta.get i with
        | none => .panic
        | some delta =>
          match t.idRangeOffsets.get i with
          | none => .panic
          | some ro =>
            match buildSegEntries t i startCp delta ro (endCp + 1 - startCp) startCp with
            | .panic => .panic
            | .fail => .fail
            | .ok entries =>
              match buildMapAux t rem (i + 1) with
              | .panic => .panic
              | .fail => .fail
              | .ok rest => .ok (entries ++ rest)

/-- CmapSubtableFormat4::get_code_point_glyph_id_map, as the list of
inserted (code point, glyph id) pairs in insertion order. -/
def CmapSubtableFormat4.get_code_point_glyph_id_map (t : CmapSubtableFormat4) :
    PRes (List (Nat × Nat)) :=
  buildMapAux t t.startCode.len 0

theorem buildSegEntries_mem (t : CmapSubtableFormat4) (i startCp : Nat)
    (delta : Int) (ro : Nat) :
    ∀ cnt cp0 l, buildSegEntries t i startCp delta ro cnt cp0 = .ok l →
      ∀ cp, cp0 ≤ cp → cp < cp0 + cnt →
        ∃ g, mapSegGid t i startCp delta ro cp = .ok g ∧ (cp, g) ∈ l := by
  intro cnt
  induction cnt with
  | zero =>
    intro cp0 l h cp h1 h2
    omega
  | succ m ih =>
    intro cp0 l h cp h1 h2
    unfold buildSegEntries at h
    split at h
    · cases h
    · cases h
    · rename_i gid hgid
      split at h
      · cases h
      · split at h
        · rename_i rest hrest
          cases h
          rcases Nat.eq_or_lt_of_le h1 with heq | hlt
          · subst heq
            exact ⟨gid, hgid, List.mem_cons_self _ _⟩
          · obtain ⟨g, hg, hmem⟩ := ih (cp0 + 1) rest hrest cp hlt (by omega)
            exact ⟨g, hg, List.mem_cons_of_mem _ hmem⟩
        · cases h
        · cases h

theorem buildMapAux_mem (t : CmapSubtableFormat4) (hs : Format4Sorted t) :
    ∀ rem j l, buildMapAux t rem j = .ok l →
      ∀ i, j ≤ i → i < j + rem → i < t.segCount →
        ∃ li, buildSegEntries t i (t.startVal i) (t.deltaVal i) (t.roVal i)
            (t.endVal i + 1 - t.startVal i) (t.startVal i) = .ok li ∧
          ∀ x, x ∈ li → x ∈ l := by
  intro rem
  induction rem with
  | zero =>
    intro j l h i h1 h2 h3
    omega
  | succ m ih =>
    intro j l h i h1 h2 h3
    have hjseg : j < t.segCount := by omega
    unfold buildMapAux at h
    split at h
    · rename_i hS
      rw [startCode_get_eq t j hjseg] at hS
      cases hS
    · rename_i startCp hS
      rw [startCode_get_eq t j hjseg] at hS
      injection hS with hS
      subst hS
      split at h
      · rename_i hE
        rw [endCode_get_eq t hs j hjseg] at hE
        cases hE
      · rename_i endCp hE
        rw [endCode_get_eq t hs j hjseg] at hE
        injection hE with hE
        subst hE
        split at h
        · rename_i hD
          rw [deltaVal_get_eq t hs j hjseg] at hD
          cases hD
        · rename_i delta hD
          rw [deltaVal_get_eq t hs j hjseg] at hD
          injection hD with hD
          subst hD
          split at h
          · rename_i hR
            rw [roVal_get_eq t hs j hjseg] at hR
            cases hR
          · rename_i ro hR
            rw [roVal_get_eq t hs j hjseg] at hR
            injection hR with hR
            subst hR
            split at h
            · cases h
            · cases h
            · rename_i entries hentries
              split at h
              · cases h
              · cases h
              · rename_i rest hrest
                cases h
                rcases Nat.eq_or_lt_of_le h1 with heq | hlt
                · subst heq
                  exact ⟨entries, hentries, fun x hx => List.mem_append_left _ hx⟩
                · obtain ⟨li, hli, hsub⟩ := ih (j + 1) rest hrest i hlt (by omega) h3
                  exact ⟨li, hli, fun x hx => List.mem_append_right _ (hsub x hx)⟩

theorem mapSegGid_eq_segmentResult (t : CmapSubtableFormat4) (hs : Format4Sorted t)
    (i : Nat) (hi : i < t.segCount) (c : Nat) (g : Nat)
    (h : mapSegGid t i (t.startVal i) (t.deltaVal i) (t.roVal i) c = .ok g) :
    cmapSegmentResult t c i (t.startVal i) = .ok g := by
  unfold mapSegGid at h
  unfold cmapSegmentResult
  simp only [roVal_get_eq t hs i hi, deltaVal_get_eq t hs i hi]
  by_cases hro : t.roVal i = 0
  · rw [if_pos hro] at h
    rw [if_pos hro]
    exact h
  · rw [if_neg hro] at h
    rw [if_neg hro]
    by_cases hu : t.roVal i / 2 < t.idRangeOffsets.len - i
    · rw [if_pos hu] at h
      cases h
    · rw [if_neg hu] at h
      rw [if_neg hu]
      cases hg : t.glyphIdArray.get
          (t.roVal i / 2 - (t.idRangeOffsets.len - i) + (c - t.startVal i)) with
      | none =>
        rw [hg] at h
        cases h
      | some g2 =>
        rw [hg] at h
        simp only [hg]
        exact h

/-- C7: on a well-formed format-4 subtable whose endCode values are
16-bit, whenever the streaming enumeration succeeds, every code point c
inside some segment i appears among the enumerated pairs with a glyph
id equal to the one the accessor get_glyph_id returns for c. -/
theorem cmap4_map_agrees_with_get_glyph_id
    (t : CmapSubtableFormat4) (entries : List (Nat × Nat)) (c i : Nat)
    (hs : Format4Sorted t)
    (hb : ∀ j, j < t.segCount → t.endVal j < 65536)
    (hmap : t.get_code_point_glyph_id_map = .ok entries)
    (hi : i < t.segCount) (hc1 : t.startVal i ≤ c) (hc2 : c ≤ t.endVal i) :
    ∃ g, (c, g) ∈ entries ∧ t.get_glyph_id c = .ok g := by
  have hlen : t.startCode.len = t.segCount := rfl
  unfold CmapSubtableFormat4.get_code_point_glyph_id_map at hmap
  obtain ⟨li, hli, hsub⟩ :=
    buildMapAux_mem t hs t.startCode.len 0 entries hmap i (by omega) (by omega) hi
  have hse := hs.2.2.2.1 i hi
  obtain ⟨g, hg, hmem⟩ :=
    buildSegEntries_mem t i (t.startVal i) (t.deltaVal i) (t.roVal i)
      (t.endVal i + 1 - t.startVal i) (t.startVal i) li hli c hc1 (by omega)
  refine ⟨g, hsub _ hmem, ?_⟩
  have hc : c < 65536 := by
    have := hb i hi
    omega
  unfold CmapSubtableFormat4.get_glyph_id
  rw [if_pos hc]
  rw [cmapSearchLoop_finds t hs c i hi hc1 hc2 t.startCode.len 0 t.startCode.len
    le_rfl (by omega) (by omega) le_rfl]
  exact mapSegGid_eq_segmentResult t hs i hi c g hg

/-- Concrete subtable for the map-accessor agreement: one real segment
0x41..0x43 with delta -0x40 and the terminating 0xFFFF segment. -/
def cmapEx2 : CmapSubtableFormat4 :=
  ⟨4, 32, 0, 4, 4, 1, 0, 0,
   [0x00, 0x43, 0xFF, 0xFF], [0x00, 0x41, 0xFF, 0xFF],
   [0xFF, 0xC0, 0x00, 0x01], [0, 0, 0, 0], []⟩

/-- C7 witness: on the concrete subtable the enumeration is
[(0x41, 1), (0x42, 2), (0x43, 3), (0xFFFF, 0)] and the entry for 0x41
carries the same glyph id the accessor returns. -/
theorem cmap4_map_agrees_witness :
    ∃ g, (0x41, g) ∈ [(0x41, 1), (0x42, 2), (0x43, 3), (0xFFFF, 0)] ∧
      cmapEx2.get_glyph_id 0x41 = PRes.ok g :=
  cmap4_map_agrees_with_get_glyph_id cmapEx2
    [(0x41, 1), (0x42, 2), (0x43, 3), (0xFFFF, 0)] 0x41 0
    (by decide) (by decide) (by decide) (by decide) (by decide) (by decide)

end FontDecoder
